import Mathlib

/-!
Verification of the fizzezpy core: the interval-grouping function
`get_consecutive_num_intervals` (defined identically in `modules/math_utils.py`
and `modules/data_proc_utils.py`) and the correlation-matrix unstacker
`unstack_corr_df` (`modules/data_proc_utils.py`).

Modelling conventions:
- Integer sequences are `List Int`; machine integers in the source are
  arbitrary-precision Python/NumPy ints, so `Int` is exact.
- A Python expression that can raise (out-of-range indexing, indexing with a
  non-integer) is modelled in `Option`: `none` is "the call raises".
- NumPy values that are integer-valued floats (the `float64` promotion
  produced by `np.hstack` when the middle list is empty) are modelled by their
  exact integer value; the `float64` dtype itself only matters when such a
  value is used as an index, which raises in NumPy/Python and is modelled
  explicitly in `get_consecutive_num_intervals`.
-/

/-- Model of `np.arange(a, b)` for integer arguments: the integers
`a, a+1, ..., b-1` (empty when `b ≤ a`). -/
def intRange (a b : Int) : List Int :=
  (List.range (b - a).toNat).map (fun (k : Nat) => a + (k : Int))

/-- Model of Python/NumPy sequence indexing `arr[i]` with a (possibly
negative) integer index: indices in `[0, len)` read directly, indices in
`[-len, 0)` read from the end, anything else raises `IndexError` (`none`). -/
def pyGetI (arr : List Int) (i : Int) : Option Int :=
  if 0 ≤ i ∧ i < arr.length then some (arr.getD i.toNat 0)
  else if i < 0 ∧ 0 ≤ i + arr.length then some (arr.getD (i + arr.length).toNat 0)
  else none

/-- Model of `np.diff(arr)`: the list of successive differences
`arr[i+1] - arr[i]`, of length `N - 1`. -/
def npDiff (arr : List Int) : List Int :=
  List.zipWith (fun a b => b - a) arr arr.tail

namespace math_utils

/-- Source line `bound_idx = [_i for _i, _diff in enumerate(np.diff(arr)) if not _diff == 1]`
from `modules/math_utils.py`: the positions whose successive difference is not
exactly 1. -/
def bound_idx_raw (arr : List Int) : List Int :=
  ((npDiff arr).enum.filter (fun p => decide (¬ p.2 = 1))).map (fun p => (p.1 : Int))

/-- Source line `bound_idx = np.hstack([-1, bound_idx, len(arr) - 1])`:
sentinel `-1` prepended and `len(arr) - 1` appended. -/
def bound_idx_all (arr : List Int) : List Int :=
  -1 :: (bound_idx_raw arr ++ [(arr.length : Int) - 1])

/-- Source line `bound_idx = np.vstack([bound_idx[:-1] + 1, bound_idx[1:]]).T`:
the pairs `(B[k] + 1, B[k+1])` over successive elements of the hstacked
boundary list. -/
def bound_idx_pairs (arr : List Int) : List (Int × Int) :=
  List.zipWith (fun a b => (a + 1, b)) (bound_idx_all arr) (bound_idx_all arr).tail

/-- Source list comprehension `[np.arange(arr[_s], arr[_e]+1) for _s, _e in bound_idx]`,
evaluated left to right; the first indexing error aborts the whole
comprehension (`none`). -/
def arange_rows (arr : List Int) : List (Int × Int) → Option (List (List Int))
  | [] => some []
  | p :: ps => do
    let s ← pyGetI arr p.1
    let e ← pyGetI arr p.2
    let rest ← arange_rows arr ps
    pure (intRange s (e + 1) :: rest)

/-- Embedding of `math_utils.get_consecutive_num_intervals`.

The `ret_idx = true` branch returns the boundary index pairs.

The `ret_idx = false` branch evaluates `np.arange(arr[_s], arr[_e] + 1)` for
each pair.  One NumPy detail is load-bearing here: when the list-comprehension
`bound_idx` is empty (every successive difference equals 1, including the
cases N = 1 and N = 0), `np.hstack([-1, [], len(arr) - 1])` promotes to
`float64` because `np.array([])` has dtype `float64`; the resulting pair
entries are floats, and `arr[_s]` with a float index raises
(`IndexError`/`TypeError`).  That raise is modelled by the `none` result on
that branch.  When `bound_idx` is non-empty the dtype stays integral and each
index access is an ordinary integer access, modelled by `pyGetI`. -/
def get_consecutive_num_intervals (arr : List Int) (ret_idx : Bool) :
    Option (List (Int × Int) ⊕ List (List Int)) :=
  if ret_idx then some (Sum.inl (bound_idx_pairs arr))
  else if (bound_idx_raw arr).isEmpty then none
  else (arange_rows arr (bound_idx_pairs arr)).map Sum.inr

end math_utils

namespace data_proc_utils

/-- Source line `bound_idx = [_i for _i, _diff in enumerate(np.diff(arr)) if not _diff == 1]`
from `modules/data_proc_utils.py` (a verbatim copy of the `math_utils`
definition). -/
def bound_idx_raw (arr : List Int) : List Int :=
  ((npDiff arr).enum.filter (fun p => decide (¬ p.2 = 1))).map (fun p => (p.1 : Int))

/-- Source line `bound_idx = np.hstack([-1, bound_idx, len(arr) - 1])` from
`modules/data_proc_utils.py`. -/
def bound_idx_all (arr : List Int) : List Int :=
  -1 :: (bound_idx_raw arr ++ [(arr.length : Int) - 1])

/-- Source line `bound_idx = np.vstack([bound_idx[:-1] + 1, bound_idx[1:]]).T`
from `modules/data_proc_utils.py`. -/
def bound_idx_pairs (arr : List Int) : List (Int × Int) :=
  List.zipWith (fun a b => (a + 1, b)) (bound_idx_all arr) (bound_idx_all arr).tail

/-- Source list comprehension `[np.arange(arr[_s], arr[_e]+1) for _s, _e in bound_idx]`
from `modules/data_proc_utils.py`. -/
def arange_rows (arr : List Int) : List (Int × Int) → Option (List (List Int))
  | [] => some []
  | p :: ps => do
    let s ← pyGetI arr p.1
    let e ← pyGetI arr p.2
    let rest ← arange_rows arr ps
    pure (intRange s (e + 1) :: rest)

/-- Embedding of `data_proc_utils.get_consecutive_num_intervals`, the verbatim
copy of the `math_utils` function (same NumPy `float64` promotion caveat,
modelled identically). -/
def get_consecutive_num_intervals (arr : List Int) (ret_idx : Bool) :
    Option (List (Int × Int) ⊕ List (List Int)) :=
  if ret_idx then some (Sum.inl (bound_idx_pairs arr))
  else if (bound_idx_raw arr).isEmpty then none
  else (arange_rows arr (bound_idx_pairs arr)).map Sum.inr

/-- Model of a pandas correlation matrix (`pd.DataFrame` as produced by
`DataFrame.corr()`): a square table whose rows and columns are indexed by the
same ordered label list, with `entry i j` the value at row label `i`, column
label `j` (`corr.loc[i, j]`).  Labels `L` and values `V` are kept abstract,
as pandas labels/values are arbitrary ordered Python objects; claims
instantiate them.  Squareness is structural; symmetry and label distinctness
are hypotheses of the claims that need them. -/
structure CorrDF (L V : Type) where
  labels : List L
  entry : L → L → V

variable {L V : Type}

/-- Model of `corr.unstack()` on a DataFrame with a flat index: a Series whose
MultiIndex is (column label, row label), column-major, so the triple is
`(level_0, level_1, value) = (c, r, corr.loc[r, c])` for each column `c` in
column order and each row `r` in index order. -/
def unstack (corr : CorrDF L V) : List (L × L × V) :=
  corr.labels.flatMap (fun c => corr.labels.map (fun r => (c, r, corr.entry r c)))

/-- Model of `corr_uns.sort_values(ascending=ascending)`: sort the rows by the
value component.  The source's quicksort is unstable and leaves the relative
order of equal values unspecified; a (stable) insertion sort is one refinement
of that contract, and no claim depends on tie order. -/
def sort_values [LinearOrder V] (ascending : Bool) (l : List (L × L × V)) :
    List (L × L × V) :=
  if ascending then l.insertionSort (fun t u => t.2.2 ≤ u.2.2)
  else l.insertionSort (fun t u => u.2.2 ≤ t.2.2)

/-- Model of the row-wise `sorted` in
`df_corr[['level_0', 'level_1']].apply(sorted, 1).astype(str)`: the canonical
(order-independent) form of the two label columns of a row.  The `astype(str)`
only makes the pair hashable for `duplicated`; the pair itself is the key. -/
def canon_key [LinearOrder L] (t : L × L × V) : L × L :=
  if t.1 ≤ t.2.1 then (t.1, t.2.1) else (t.2.1, t.1)

/-- Model of `df_corr[~df_corr_cols.apply(sorted, 1).astype(str).duplicated()]`:
`Series.duplicated()` (default `keep='first'`) marks every row whose canonical
key already occurred earlier, so the complement mask retains the first
occurrence of each canonical key, in order. -/
def dedup_first [LinearOrder L] : List (L × L) → List (L × L × V) → List (L × L × V)
  | _, [] => []
  | seen, t :: ts =>
    if canon_key t ∈ seen then dedup_first seen ts
    else t :: dedup_first (canon_key t :: seen) ts

/-- Output shape of `unstack_corr_df`: the renamed column labels
(`df_corr.columns = [col_name_1, col_name_2, 'corr']`) and the rows; the final
`reset_index(drop=True)` renumbers rows 0.. and is implicit in list position. -/
structure EdgeTable (L V : Type) where
  colNames : String × String × String
  rows : List (L × L × V)

/-- Embedding of `data_proc_utils.unstack_corr_df`, line by line:
`corr_uns = corr.unstack()`;
`corr_uns_sorted = corr_uns.sort_values(ascending=ascending)`;
`df_corr = corr_uns_sorted.to_frame(); df_corr.reset_index(drop=False, inplace=True)`
(the triples already carry `level_0`, `level_1`, value);
`df_corr = df_corr.query('level_0 != level_1')`;
`dup_mask = ~df_corr[['level_0','level_1']].apply(sorted, 1).astype(str).duplicated()`
and `df_corr = df_corr[dup_mask]`;
`df_corr.columns = [col_name_1, col_name_2, 'corr']`;
`df_corr.reset_index(drop=True, inplace=True)`. -/
def unstack_corr_df [LinearOrder L] [LinearOrder V] (corr : CorrDF L V)
    (ascending : Bool) (col_name_1 col_name_2 : String) : EdgeTable L V :=
  let corr_uns := unstack corr
  let corr_uns_sorted := sort_values ascending corr_uns
  let df_corr := corr_uns_sorted.filter (fun t => decide (¬ t.1 = t.2.1))
  let df_corr_dedup := dedup_first [] df_corr
  { colNames := (col_name_1, col_name_2, "corr"), rows := df_corr_dedup }

/-- The call `unstack_corr_df(corr, ...)` as observed by the caller: the
returned table together with the caller's matrix after the call.  Every
operation in the body either returns a fresh object (`unstack`,
`sort_values`, `to_frame`, `query`, boolean indexing) or mutates only the
derived frame `df_corr` (the two `inplace=True` `reset_index` calls and the
column assignment); no operation writes through `corr`, so the second
component is the unchanged input. -/
def unstack_corr_df_frame [LinearOrder L] [LinearOrder V] (corr : CorrDF L V)
    (ascending : Bool) (col_name_1 col_name_2 : String) :
    EdgeTable L V × CorrDF L V :=
  (unstack_corr_df corr ascending col_name_1 col_name_2, corr)

end data_proc_utils

/-- Successive pairs `(B[k] + 1, B[k+1])` of a boundary list, the common shape
of the `np.vstack([bound_idx[:-1] + 1, bound_idx[1:]]).T` step. -/
def zipSuccPairs (B : List Int) : List (Int × Int) :=
  List.zipWith (fun a b => (a + 1, b)) B B.tail

theorem intRange_self (a : Int) : intRange a a = [] := by
  simp [intRange]

theorem intRange_zero (n : Nat) : intRange 0 n = (List.range n).map (fun (i : Nat) => (i : Int)) := by
  simp [intRange]

theorem intRange_append {a b c : Int} (hab : a ≤ b) (hbc : b ≤ c) :
    intRange a b ++ intRange b c = intRange a c := by
  unfold intRange
  have h : (c - a).toNat = (b - a).toNat + (c - b).toNat := by omega
  rw [h, List.range_add, List.map_append, List.map_map]
  congr 1
  apply List.map_congr_left
  intro x _
  simp only [Function.comp_apply]
  omega

theorem chain_le_getLastD {b : Int} {B : List Int} (h : List.Chain (· < ·) b B) :
    b ≤ B.getLastD b := by
  induction B generalizing b with
  | nil => exact le_refl b
  | cons b' B' ih =>
    rcases h with _ | ⟨hbb', hch⟩
    calc b ≤ b' := le_of_lt hbb'
    _ ≤ B'.getLastD b' := ih hch
    _ = (b' :: B').getLastD b := by rw [List.getLastD_cons]

theorem zipSuccPairs_cons (a b : Int) (B : List Int) :
    zipSuccPairs (a :: b :: B) = (a + 1, b) :: zipSuccPairs (b :: B) := rfl

theorem zipSuccPairs_fst_gt {a : Int} {B : List Int} (h : List.Chain (· < ·) a B) :
    ∀ q ∈ zipSuccPairs (a :: B), a < q.1 := by
  induction B generalizing a with
  | nil => intro q hq; simp [zipSuccPairs] at hq
  | cons b B' ih =>
    rcases h with _ | ⟨hab, hch⟩
    intro q hq
    rw [zipSuccPairs_cons] at hq
    rcases List.mem_cons.mp hq with rfl | hq
    · show a < a + 1
      omega
    · exact lt_trans hab (ih hch q hq)

theorem zipSuccPairs_snd_le {a : Int} {B : List Int} (h : List.Chain (· < ·) a B) :
    ∀ q ∈ zipSuccPairs (a :: B), q.2 ≤ B.getLastD a := by
  induction B generalizing a with
  | nil => intro q hq; simp [zipSuccPairs] at hq
  | cons b B' ih =>
    rcases h with _ | ⟨hab, hch⟩
    intro q hq
    rw [zipSuccPairs_cons] at hq
    rw [List.getLastD_cons]
    rcases List.mem_cons.mp hq with rfl | hq
    · exact chain_le_getLastD hch
    · exact ih hch q hq

theorem zipSuccPairs_le {a : Int} {B : List Int} (h : List.Chain (· < ·) a B) :
    ∀ p ∈ zipSuccPairs (a :: B), p.1 ≤ p.2 := by
  induction B generalizing a with
  | nil => intro p hp; simp [zipSuccPairs] at hp
  | cons b B' ih =>
    rcases h with _ | ⟨hab, hch⟩
    intro p hp
    rw [zipSuccPairs_cons] at hp
    rcases List.mem_cons.mp hp with rfl | hp
    · show a + 1 ≤ b
      omega
    · exact ih hch p hp

theorem zipSuccPairs_pairwise {a : Int} {B : List Int} (h : List.Chain (· < ·) a B) :
    List.Pairwise (fun p q => p.2 < q.1) (zipSuccPairs (a :: B)) := by
  induction B generalizing a with
  | nil => simp [zipSuccPairs]
  | cons b B' ih =>
    rcases h with _ | ⟨hab, hch⟩
    rw [zipSuccPairs_cons]
    refine List.Pairwise.cons ?_ (ih hch)
    intro q hq
    exact zipSuccPairs_fst_gt hch q hq

theorem zipSuccPairs_flatMap {a : Int} {B : List Int} (h : List.Chain (· < ·) a B) :
    (zipSuccPairs (a :: B)).flatMap (fun p => intRange p.1 (p.2 + 1)) =
      intRange (a + 1) (B.getLastD a + 1) := by
  induction B generalizing a with
  | nil => simp [zipSuccPairs, intRange_self]
  | cons b B' ih =>
    rcases h with _ | ⟨hab, hch⟩
    show intRange (a + 1) (b + 1) ++
        (zipSuccPairs (b :: B')).flatMap (fun p => intRange p.1 (p.2 + 1)) = _
    rw [ih hch, List.getLastD_cons]
    exact intRange_append (by omega) (by have := chain_le_getLastD hch; omega)

theorem bound_idx_raw_mem {arr : List Int} {x : Int} (hx : x ∈ math_utils.bound_idx_raw arr) :
    0 ≤ x ∧ x < (arr.length : Int) - 1 := by
  unfold math_utils.bound_idx_raw at hx
  rcases List.mem_map.mp hx with ⟨p, hp, rfl⟩
  have hpe : p ∈ (npDiff arr).enum := List.mem_of_mem_filter hp
  obtain ⟨i, d⟩ := p
  have hi := (List.mem_enum hpe).1
  have hlen : (npDiff arr).length = arr.length - 1 := by
    unfold npDiff
    rw [List.length_zipWith, List.length_tail]
    omega
  rw [hlen] at hi
  constructor
  · exact Int.ofNat_nonneg i
  · omega

theorem bound_idx_raw_pairwise (arr : List Int) :
    List.Pairwise (· < ·) (math_utils.bound_idx_raw arr) := by
  unfold math_utils.bound_idx_raw
  rw [List.pairwise_map]
  have h1 : List.Pairwise (fun (p q : Nat × Int) => p.1 < q.1) (npDiff arr).enum := by
    have h2 : List.Pairwise (· < ·) (List.map Prod.fst (npDiff arr).enum) := by
      rw [List.enum_map_fst]
      exact List.pairwise_lt_range _
    exact (List.pairwise_map.mp h2)
  have hsub : (List.filter (fun (p : Nat × Int) => decide (¬ p.2 = 1)) (npDiff arr).enum).Sublist
      (npDiff arr).enum := List.filter_sublist _
  have h3 := h1.sublist hsub
  exact h3.imp (fun h => by exact_mod_cast h)

theorem bound_idx_all_chain {arr : List Int} (h : 1 ≤ arr.length) :
    List.Chain (· < ·) (-1)
      (math_utils.bound_idx_raw arr ++ [(arr.length : Int) - 1]) := by
  rw [List.chain_iff_pairwise]
  show List.Pairwise (· < ·)
    ((-1) :: (math_utils.bound_idx_raw arr ++ [(arr.length : Int) - 1]))
  refine List.pairwise_cons.mpr ⟨?_, ?_⟩
  · intro x hx
    rcases List.mem_append.mp hx with hx | hx
    · have := bound_idx_raw_mem hx
      omega
    · rcases List.mem_singleton.mp hx with rfl
      omega
  · rw [List.pairwise_append]
    refine ⟨bound_idx_raw_pairwise arr, List.pairwise_singleton _ _, ?_⟩
    intro x hx y hy
    rcases List.mem_singleton.mp hy with rfl
    have := bound_idx_raw_mem hx
    omega

theorem bound_idx_pairs_eq (arr : List Int) :
    math_utils.bound_idx_pairs arr = zipSuccPairs (math_utils.bound_idx_all arr) := rfl

theorem bound_idx_all_getLastD (arr : List Int) :
    (math_utils.bound_idx_raw arr ++ [(arr.length : Int) - 1]).getLastD (-1) =
      (arr.length : Int) - 1 :=
  List.getLastD_concat _ _ _

/-- C1: for every integer sequence `arr` of length N ≥ 1,
`get_consecutive_num_intervals(arr, ret_idx=True)` returns a list of inclusive
0-based (start, end) index pairs that partitions [0, N-1] exactly: every pair
is nonempty (start ≤ end), the pairs are pairwise disjoint and appear in
ascending order of position (each pair ends strictly before the next begins),
and concatenating the inclusive index ranges they span yields exactly the
index sequence 0, 1, ..., N-1, so every index is covered exactly once. -/
theorem C1_intervalList_partitions (arr : List Int) (h : 1 ≤ arr.length) :
    ∀ ps, math_utils.get_consecutive_num_intervals arr true = some (Sum.inl ps) →
      (∀ p ∈ ps, p.1 ≤ p.2) ∧
      List.Pairwise (fun p q => p.2 < q.1) ps ∧
      ps.flatMap (fun p => intRange p.1 (p.2 + 1)) =
        (List.range arr.length).map (fun (i : Nat) => (i : Int)) := by
  intro ps hps
  have hps' : math_utils.bound_idx_pairs arr = ps := by
    simpa [math_utils.get_consecutive_num_intervals] using hps
  subst hps'
  have hch := bound_idx_all_chain h
  rw [bound_idx_pairs_eq]
  have hall : math_utils.bound_idx_all arr =
      (-1) :: (math_utils.bound_idx_raw arr ++ [(arr.length : Int) - 1]) := rfl
  rw [hall]
  refine ⟨zipSuccPairs_le hch, zipSuccPairs_pairwise hch, ?_⟩
  rw [zipSuccPairs_flatMap hch, bound_idx_all_getLastD]
  have h0 : (-1 : Int) + 1 = 0 := by norm_num
  have h1 : ((arr.length : Int) - 1) + 1 = (arr.length : Int) := by ring
  rw [h0, h1, intRange_zero]

/-- Witness for C1 at the concrete input [1, 2, 5] (intervals [(0,1), (2,2)]). -/
theorem C1_intervalList_partitions_witness :
    1 ≤ ([1, 2, 5] : List Int).length ∧
      ((∀ p ∈ [((0 : Int), (1 : Int)), (2, 2)], p.1 ≤ p.2) ∧
       List.Pairwise (fun (p q : Int × Int) => p.2 < q.1) [((0 : Int), (1 : Int)), (2, 2)] ∧
       ([((0 : Int), (1 : Int)), (2, 2)]).flatMap (fun p => intRange p.1 (p.2 + 1)) =
         (List.range ([1, 2, 5] : List Int).length).map (fun (i : Nat) => (i : Int))) :=
  ⟨by decide,
    C1_intervalList_partitions [1, 2, 5] (by decide) [((0 : Int), (1 : Int)), (2, 2)] (by decide)⟩

/-- C3: evaluation of both copies of `get_consecutive_num_intervals` on the
empty sequence.  The code does not special-case N = 0: with `ret_idx=True` it
returns the single (nonsensical) pair (0, -1) rather than an empty
IntervalList, and with `ret_idx=False` the indexing `arr[_s]` raises
(modelled by `none`) rather than returning an empty GroupedValues. -/
theorem C3_empty_input_eval :
    math_utils.get_consecutive_num_intervals [] true = some (Sum.inl [(0, -1)]) ∧
    math_utils.get_consecutive_num_intervals [] false = none ∧
    data_proc_utils.get_consecutive_num_intervals [] true = some (Sum.inl [(0, -1)]) ∧
    data_proc_utils.get_consecutive_num_intervals [] false = none := by decide

theorem bound_idx_raw_eq_nil {arr : List Int} (h : ∀ d ∈ npDiff arr, d = 1) :
    math_utils.bound_idx_raw arr = [] := by
  unfold math_utils.bound_idx_raw
  rw [List.map_eq_nil_iff, List.filter_eq_nil_iff]
  intro p hp
  obtain ⟨i, d⟩ := p
  rw [List.enum_eq_zip_range] at hp
  have hd : d ∈ npDiff arr := (List.of_mem_zip hp).2
  simp [h d hd]

/-- C4 counterexample: [3, 3] is a non-decreasing integer sequence of length
2 ≥ 1 whose successive differences are all at most 1 (the single difference is
0), yet `get_consecutive_num_intervals([3, 3], ret_idx=True)` returns the two
intervals (0,0), (1,1), not the single interval (0, 1) = [0, N-1] the claim
requires: a difference of 0 also starts a new run, because the code splits at
every difference that is not exactly 1. -/
theorem C4_counterexample :
    ((∀ d ∈ npDiff [3, 3], 0 ≤ d ∧ d ≤ 1) ∧ 1 ≤ ([3, 3] : List Int).length) ∧
    math_utils.get_consecutive_num_intervals [3, 3] true = some (Sum.inl [(0, 0), (1, 1)]) ∧
    ¬ math_utils.get_consecutive_num_intervals [3, 3] true = some (Sum.inl [(0, 1)]) := by
  decide

/-- C4 (amended): for every integer sequence of length N ≥ 1 in which the
difference between each pair of consecutive elements is exactly 1 (strictly
increasing by one, i.e. one single run),
`get_consecutive_num_intervals(arr, ret_idx=True)` returns exactly one
interval, [0, N-1]. -/
theorem C4_single_run_single_interval (arr : List Int) (h : 1 ≤ arr.length)
    (h2 : ∀ d ∈ npDiff arr, d = 1) :
    math_utils.get_consecutive_num_intervals arr true =
      some (Sum.inl [(0, (arr.length : Int) - 1)]) := by
  have hraw := bound_idx_raw_eq_nil h2
  simp [math_utils.get_consecutive_num_intervals, math_utils.bound_idx_pairs,
    math_utils.bound_idx_all, hraw, zipSuccPairs]

/-- Witness for the amended C4 at the concrete input [4, 5, 6]. -/
theorem C4_single_run_single_interval_witness :
    (1 ≤ ([4, 5, 6] : List Int).length ∧ (∀ d ∈ npDiff [4, 5, 6], d = 1)) ∧
    math_utils.get_consecutive_num_intervals [4, 5, 6] true =
      some (Sum.inl [(0, (([4, 5, 6] : List Int).length : Int) - 1)]) :=
  ⟨⟨by decide, by decide⟩, C4_single_run_single_interval [4, 5, 6] (by decide) (by decide)⟩

/-- C8: the docstring example. Input [2,3,4,5,12,13,14,15,16,17,20] yields the
IntervalList [[0,3],[4,9],[10,10]] with ret_idx=True and the GroupedValues
[[2,3,4,5],[12,13,14,15,16,17],[20]] with ret_idx=False. -/
theorem C8_docstring_example :
    math_utils.get_consecutive_num_intervals [2, 3, 4, 5, 12, 13, 14, 15, 16, 17, 20] true
      = some (Sum.inl [(0, 3), (4, 9), (10, 10)]) ∧
    math_utils.get_consecutive_num_intervals [2, 3, 4, 5, 12, 13, 14, 15, 16, 17, 20] false
      = some (Sum.inr [[2, 3, 4, 5], [12, 13, 14, 15, 16, 17], [20]]) := by decide

/-- C10: the two copies of `get_consecutive_num_intervals`, in
`modules/math_utils.py` and `modules/data_proc_utils.py`, are extensionally
equal: for every input sequence and every value of `ret_idx` they return the
same result (the two embeddings are definitionally identical, as the source
is a verbatim copy). -/
theorem arange_rows_congr (arr : List Int) (ps : List (Int × Int)) :
    math_utils.arange_rows arr ps = data_proc_utils.arange_rows arr ps := by
  induction ps with
  | nil => rfl
  | cons p ps ih =>
    show (do
        let s ← pyGetI arr p.1
        let e ← pyGetI arr p.2
        let rest ← math_utils.arange_rows arr ps
        pure (intRange s (e + 1) :: rest)) = _
    rw [ih]
    rfl

theorem C10_duplicate_defs_extensionally_equal (arr : List Int) (ret_idx : Bool) :
    math_utils.get_consecutive_num_intervals arr ret_idx =
      data_proc_utils.get_consecutive_num_intervals arr ret_idx := by
  unfold math_utils.get_consecutive_num_intervals data_proc_utils.get_consecutive_num_intervals
  rw [arange_rows_congr]
  rfl

/-- Witness for C10 at a concrete input. -/
theorem C10_duplicate_defs_extensionally_equal_witness :
    math_utils.get_consecutive_num_intervals [2, 3, 7] false =
      data_proc_utils.get_consecutive_num_intervals [2, 3, 7] false :=
  C10_duplicate_defs_extensionally_equal [2, 3, 7] false

theorem bound_idx_pairs_range {arr : List Int} (h : 1 ≤ arr.length) :
    ∀ p ∈ math_utils.bound_idx_pairs arr,
      0 ≤ p.1 ∧ p.1 ≤ p.2 ∧ p.2 < (arr.length : Int) := by
  intro p hp
  have hch := bound_idx_all_chain h
  rw [bound_idx_pairs_eq] at hp
  have hall : math_utils.bound_idx_all arr =
      (-1) :: (math_utils.bound_idx_raw arr ++ [(arr.length : Int) - 1]) := rfl
  rw [hall] at hp
  have h1 := zipSuccPairs_fst_gt hch p hp
  have h2 := zipSuccPairs_le hch p hp
  have h3 := zipSuccPairs_snd_le hch p hp
  rw [bound_idx_all_getLastD] at h3
  omega

theorem pyGetI_eq_getD {arr : List Int} {i : Int} (h0 : 0 ≤ i) (h1 : i < (arr.length : Int)) :
    pyGetI arr i = some (arr.getD i.toNat 0) := by
  unfold pyGetI
  rw [if_pos ⟨h0, h1⟩]

theorem arange_rows_eq_map {arr : List Int} {ps : List (Int × Int)}
    (h : ∀ p ∈ ps, 0 ≤ p.1 ∧ p.1 ≤ p.2 ∧ p.2 < (arr.length : Int)) :
    math_utils.arange_rows arr ps =
      some (ps.map (fun p => intRange (arr.getD p.1.toNat 0) (arr.getD p.2.toNat 0 + 1))) := by
  induction ps with
  | nil => rfl
  | cons p ps ih =>
    have hp := h p (List.mem_cons_self p ps)
    have hps : ∀ q ∈ ps, 0 ≤ q.1 ∧ q.1 ≤ q.2 ∧ q.2 < (arr.length : Int) :=
      fun q hq => h q (List.mem_cons_of_mem p hq)
    show (do
        let s ← pyGetI arr p.1
        let e ← pyGetI arr p.2
        let rest ← math_utils.arange_rows arr ps
        pure (intRange s (e + 1) :: rest)) = _
    rw [pyGetI_eq_getD hp.1 (by omega), pyGetI_eq_getD (by omega) hp.2.2, ih hps]
    rfl

/-- When the list-comprehension boundary list is non-empty (at least two runs,
so no NumPy `float64` promotion), the `ret_idx=False` output is exactly the
pairwise expansion `arr[s]..arr[e]` of the `ret_idx=True` index pairs. -/
theorem two_forms_agree {arr : List Int} (h : 1 ≤ arr.length)
    (hne : ¬ (math_utils.bound_idx_raw arr).isEmpty = true) :
    math_utils.get_consecutive_num_intervals arr false =
      some (Sum.inr ((math_utils.bound_idx_pairs arr).map
        (fun p => intRange (arr.getD p.1.toNat 0) (arr.getD p.2.toNat 0 + 1)))) := by
  unfold math_utils.get_consecutive_num_intervals
  rw [if_neg (by simp), if_neg hne, arange_rows_eq_map (bound_idx_pairs_range h)]
  rfl

/-- C7: evaluation at the failing input [1, 2, 3], a strictly-increasing-by-one
(single-run) sequence of length 3 ≥ 1.  With `ret_idx=True` the code returns
the single pair (0, 2), whose expansion `arr[0]..arr[2]` is [[1, 2, 3]]; but
with `ret_idx=False` the code raises instead of returning [[1, 2, 3]]: the
boundary list-comprehension is empty, `np.hstack` promotes the sentinels to
`float64`, and `arr[_s]` with a float index raises.  The two output forms are
therefore not consistent on single-run inputs (they do agree whenever the
sequence has at least two runs, see `two_forms_agree`). -/
theorem C7_two_forms_failing_input :
    math_utils.get_consecutive_num_intervals [1, 2, 3] true = some (Sum.inl [(0, 2)]) ∧
    math_utils.get_consecutive_num_intervals [1, 2, 3] false = none := by decide

open data_proc_utils in
theorem mem_unstack {L V : Type} {corr : CorrDF L V} {t : L × L × V} :
    t ∈ unstack corr ↔
      t.1 ∈ corr.labels ∧ t.2.1 ∈ corr.labels ∧ t.2.2 = corr.entry t.2.1 t.1 := by
  unfold data_proc_utils.unstack
  rw [List.mem_flatMap]
  constructor
  · rintro ⟨c, hc, ht⟩
    rcases List.mem_map.mp ht with ⟨r, hr, rfl⟩
    exact ⟨hc, hr, rfl⟩
  · rintro ⟨h1, h2, h3⟩
    obtain ⟨c, r, v⟩ := t
    refine ⟨c, h1, List.mem_map.mpr ⟨r, h2, ?_⟩⟩
    simp only at h3
    rw [h3]

open data_proc_utils in
theorem sort_values_perm {L V : Type} [LinearOrder V] (ascending : Bool)
    (l : List (L × L × V)) : (sort_values ascending l).Perm l := by
  unfold data_proc_utils.sort_values
  split
  · exact List.perm_insertionSort _ l
  · exact List.perm_insertionSort _ l

open data_proc_utils in
theorem dedup_first_sublist {L V : Type} [LinearOrder L] (seen : List (L × L))
    (l : List (L × L × V)) : (dedup_first seen l).Sublist l := by
  induction l generalizing seen with
  | nil => simp [dedup_first]
  | cons t ts ih =>
    simp only [dedup_first]
    split
    · exact (ih seen).trans (List.sublist_cons_self t ts)
    · exact List.Sublist.cons₂ t (ih _)

open data_proc_utils in
theorem dedup_first_keys_nodup {L V : Type} [LinearOrder L] (seen : List (L × L))
    (l : List (L × L × V)) :
    ((dedup_first seen l).map (fun t => canon_key t)).Nodup ∧
      ∀ k ∈ (dedup_first seen l).map (fun t => canon_key t), k ∉ seen := by
  induction l generalizing seen with
  | nil => simp [dedup_first]
  | cons t ts ih =>
    simp only [dedup_first]
    by_cases hk : canon_key t ∈ seen
    · rw [if_pos hk]
      exact ih seen
    · rw [if_neg hk]
      obtain ⟨ih1, ih2⟩ := ih (canon_key t :: seen)
      rw [List.map_cons]
      constructor
      · refine List.nodup_cons.mpr ⟨?_, ih1⟩
        intro hmem
        exact ih2 _ hmem (List.mem_cons_self _ _)
      · intro k hkmem
        rcases List.mem_cons.mp hkmem with rfl | hkmem
        · exact hk
        · intro hks
          exact ih2 k hkmem (List.mem_cons_of_mem _ hks)

open data_proc_utils in
theorem dedup_first_length {L V : Type} [LinearOrder L] (seen : List (L × L))
    (l : List (L × L × V)) :
    (dedup_first seen l).length =
      ((l.map (fun t => canon_key t)).toFinset \ seen.toFinset).card := by
  induction l generalizing seen with
  | nil => simp [dedup_first]
  | cons t ts ih =>
    simp only [dedup_first, List.map_cons, List.toFinset_cons]
    by_cases hk : canon_key t ∈ seen
    · rw [if_pos hk, ih seen,
        Finset.insert_sdiff_of_mem _ (List.mem_toFinset.mpr hk)]
    · rw [if_neg hk, List.length_cons, ih (canon_key t :: seen)]
      have hseen : (canon_key t :: seen).toFinset = insert (canon_key t) seen.toFinset :=
        List.toFinset_cons
      rw [hseen, Finset.sdiff_insert]
      have hout : insert (canon_key t) ((ts.map (fun u => canon_key u)).toFinset) \ seen.toFinset
          = insert (canon_key t) ((ts.map (fun u => canon_key u)).toFinset \ seen.toFinset) := by
        ext x
        simp only [Finset.mem_sdiff, Finset.mem_insert, List.mem_toFinset]
        constructor
        · rintro ⟨hx | hx, hxs⟩
          · exact Or.inl hx
          · exact Or.inr ⟨hx, hxs⟩
        · rintro (rfl | ⟨hx, hxs⟩)
          · exact ⟨Or.inl rfl, hk⟩
          · exact ⟨Or.inr hx, hxs⟩
      rw [hout]
      have hins : insert (canon_key t) ((ts.map (fun u => canon_key u)).toFinset \ seen.toFinset)
          = insert (canon_key t)
              (((ts.map (fun u => canon_key u)).toFinset \ seen.toFinset).erase (canon_key t)) := by
        ext x
        simp only [Finset.mem_insert, Finset.mem_erase]
        constructor
        · rintro (rfl | hx)
          · exact Or.inl rfl
          · by_cases hx2 : x = canon_key t
            · exact Or.inl hx2
            · exact Or.inr ⟨hx2, hx⟩
        · rintro (rfl | ⟨_, hx⟩)
          · exact Or.inl rfl
          · exact Or.inr hx
      rw [hins, Finset.card_insert_of_not_mem (Finset.not_mem_erase _ _)]

open data_proc_utils in
theorem base_keys_toFinset {L V : Type} [LinearOrder L] (corr : CorrDF L V) :
    (((unstack corr).filter (fun t => decide (¬ t.1 = t.2.1))).map
        (fun t => canon_key t)).toFinset =
      (corr.labels.toFinset ×ˢ corr.labels.toFinset).filter (fun q => q.1 < q.2) := by
  ext k
  simp only [List.mem_toFinset, List.mem_map, Finset.mem_filter, Finset.mem_product]
  constructor
  · rintro ⟨t, ht, rfl⟩
    rcases List.mem_filter.mp ht with ⟨htu, hne⟩
    have hne' : ¬ t.1 = t.2.1 := by simpa using hne
    obtain ⟨h1, h2, _⟩ := mem_unstack.mp htu
    unfold data_proc_utils.canon_key
    by_cases hle : t.1 ≤ t.2.1
    · rw [if_pos hle]
      exact ⟨⟨h1, h2⟩, lt_of_le_of_ne hle hne'⟩
    · rw [if_neg hle]
      exact ⟨⟨h2, h1⟩, lt_of_not_le hle⟩
  · rintro ⟨⟨ha, hb⟩, hab⟩
    refine ⟨(k.1, k.2, corr.entry k.2 k.1), List.mem_filter.mpr ⟨?_, ?_⟩, ?_⟩
    · exact mem_unstack.mpr ⟨ha, hb, rfl⟩
    · simp only [decide_eq_true_eq]
      exact fun hcon => absurd hcon (ne_of_lt hab)
    · unfold data_proc_utils.canon_key
      rw [if_pos (le_of_lt hab)]

theorem card_lt_pairs {α : Type} [LinearOrder α] (s : Finset α) :
    ((s ×ˢ s).filter (fun q => q.1 < q.2)).card = s.card * (s.card - 1) / 2 := by
  have hswap : ((s ×ˢ s).filter (fun q => q.1 < q.2)).card =
      ((s ×ˢ s).filter (fun q => q.2 < q.1)).card := by
    apply Finset.card_bij (fun q _ => (q.2, q.1))
    · intro q hq
      rcases Finset.mem_filter.mp hq with ⟨hqp, hlt⟩
      rcases Finset.mem_product.mp hqp with ⟨hq1, hq2⟩
      exact Finset.mem_filter.mpr ⟨Finset.mem_product.mpr ⟨hq2, hq1⟩, hlt⟩
    · intro q1 _ q2 _ he
      have h1 : q1.2 = q2.2 := congrArg Prod.fst he
      have h2 : q1.1 = q2.1 := congrArg Prod.snd he
      exact Prod.ext h2 h1
    · intro q hq
      rcases Finset.mem_filter.mp hq with ⟨hqp, hlt⟩
      rcases Finset.mem_product.mp hqp with ⟨hq1, hq2⟩
      exact ⟨(q.2, q.1),
        Finset.mem_filter.mpr ⟨Finset.mem_product.mpr ⟨hq2, hq1⟩, hlt⟩, rfl⟩
  have hunion : ((s ×ˢ s).filter (fun q => q.1 < q.2)) ∪
      ((s ×ˢ s).filter (fun q => q.2 < q.1)) = s.offDiag := by
    ext q
    simp only [Finset.mem_union, Finset.mem_filter, Finset.mem_product, Finset.mem_offDiag]
    constructor
    · rintro (⟨⟨h1, h2⟩, hlt⟩ | ⟨⟨h1, h2⟩, hlt⟩)
      · exact ⟨h1, h2, ne_of_lt hlt⟩
      · exact ⟨h1, h2, ne_of_gt hlt⟩
    · rintro ⟨h1, h2, hne⟩
      rcases lt_or_gt_of_ne hne with hlt | hlt
      · exact Or.inl ⟨⟨h1, h2⟩, hlt⟩
      · exact Or.inr ⟨⟨h1, h2⟩, hlt⟩
  have hdisj : Disjoint ((s ×ˢ s).filter (fun q => q.1 < q.2))
      ((s ×ˢ s).filter (fun q => q.2 < q.1)) := by
    rw [Finset.disjoint_left]
    intro q hq1 hq2
    have l1 := (Finset.mem_filter.mp hq1).2
    have l2 := (Finset.mem_filter.mp hq2).2
    exact absurd l2 (not_lt_of_gt l1)
  have hcard := Finset.card_union_of_disjoint hdisj
  rw [hunion, Finset.offDiag_card] at hcard
  have hmul : s.card * s.card - s.card = s.card * (s.card - 1) := by
    rcases Nat.eq_zero_or_pos s.card with h0 | h0
    · simp [h0]
    · have hp : s.card - 1 + 1 = s.card := Nat.succ_pred_eq_of_pos h0
      have hx : s.card * s.card = s.card * (s.card - 1) + s.card := by
        calc s.card * s.card = s.card * ((s.card - 1) + 1) := by rw [hp]
        _ = s.card * (s.card - 1) + s.card := by ring
      omega
  omega

/-- C2: for every square correlation matrix with distinct labels (and, in this
NaN-free model, no missing values), `unstack_corr_df` returns exactly
N*(N-1)/2 rows, no row has two equal labels (no self-pairs), and no two rows
represent the same unordered label pair (the canonical sorted label pairs of
the rows are pairwise distinct).  Symmetry of the matrix is not needed for
this counting property. -/
theorem C2_unstack_row_count_no_dups (L V : Type) [LinearOrder L] [LinearOrder V]
    (corr : data_proc_utils.CorrDF L V) (ascending : Bool) (col_name_1 col_name_2 : String)
    (hnd : corr.labels.Nodup) :
    (data_proc_utils.unstack_corr_df corr ascending col_name_1 col_name_2).rows.length =
        corr.labels.length * (corr.labels.length - 1) / 2 ∧
      (∀ t ∈ (data_proc_utils.unstack_corr_df corr ascending col_name_1 col_name_2).rows,
        ¬ t.1 = t.2.1) ∧
      ((data_proc_utils.unstack_corr_df corr ascending col_name_1 col_name_2).rows.map
        (fun t => data_proc_utils.canon_key t)).Nodup := by
  have hrows : (data_proc_utils.unstack_corr_df corr ascending col_name_1 col_name_2).rows
      = data_proc_utils.dedup_first []
          ((data_proc_utils.sort_values ascending (data_proc_utils.unstack corr)).filter
            (fun t => decide (¬ t.1 = t.2.1))) := rfl
  have hperm : ((data_proc_utils.sort_values ascending (data_proc_utils.unstack corr)).filter
        (fun t => decide (¬ t.1 = t.2.1))).Perm
      ((data_proc_utils.unstack corr).filter (fun t => decide (¬ t.1 = t.2.1))) :=
    (sort_values_perm ascending (data_proc_utils.unstack corr)).filter _
  refine ⟨?_, ?_, ?_⟩
  · rw [hrows, dedup_first_length]
    have h1 := List.toFinset_eq_of_perm _ _ (hperm.map (fun t => data_proc_utils.canon_key t))
    rw [h1, base_keys_toFinset]
    simp only [List.toFinset_nil, Finset.sdiff_empty]
    rw [card_lt_pairs, List.toFinset_card_of_nodup hnd]
  · intro t ht
    rw [hrows] at ht
    have hmem := (dedup_first_sublist _ _).subset ht
    have h2 := (List.mem_filter.mp hmem).2
    simpa using h2
  · rw [hrows]
    exact (dedup_first_keys_nodup _ _).1

/-- Witness for C2 with the 3-label matrix over labels [0, 1, 2] and entries
i + j: three rows, no self-pairs, no duplicate unordered pairs. -/
theorem C2_unstack_row_count_no_dups_witness :
    ([0, 1, 2] : List Nat).Nodup ∧
      ((data_proc_utils.unstack_corr_df
          (data_proc_utils.CorrDF.mk ([0, 1, 2] : List Nat)
            (fun (i j : Nat) => ((i : Int) + (j : Int))))
          false "col_1" "col_2").rows.length =
        ([0, 1, 2] : List Nat).length * (([0, 1, 2] : List Nat).length - 1) / 2 ∧
      (∀ t ∈ (data_proc_utils.unstack_corr_df
          (data_proc_utils.CorrDF.mk ([0, 1, 2] : List Nat)
            (fun (i j : Nat) => ((i : Int) + (j : Int))))
          false "col_1" "col_2").rows, ¬ t.1 = t.2.1) ∧
      ((data_proc_utils.unstack_corr_df
          (data_proc_utils.CorrDF.mk ([0, 1, 2] : List Nat)
            (fun (i j : Nat) => ((i : Int) + (j : Int))))
          false "col_1" "col_2").rows.map
        (fun t => data_proc_utils.canon_key t)).Nodup) :=
  ⟨by decide,
    C2_unstack_row_count_no_dups Nat Int
      (data_proc_utils.CorrDF.mk ([0, 1, 2] : List Nat)
        (fun (i j : Nat) => ((i : Int) + (j : Int))))
      false "col_1" "col_2" (by decide)⟩

/-- C5: for every square matrix (no NaN values exist in this model of the
value type), the rows returned by `unstack_corr_df` are non-increasing in the
correlation column when ascending=False and non-decreasing when
ascending=True.  No symmetry hypothesis is needed. -/
theorem C5_rows_sorted_by_value (L V : Type) [LinearOrder L] [LinearOrder V]
    (corr : data_proc_utils.CorrDF L V) (col_name_1 col_name_2 : String) :
    List.Pairwise (fun t u => u.2.2 ≤ t.2.2)
        (data_proc_utils.unstack_corr_df corr false col_name_1 col_name_2).rows ∧
      List.Pairwise (fun t u => t.2.2 ≤ u.2.2)
        (data_proc_utils.unstack_corr_df corr true col_name_1 col_name_2).rows := by
  constructor
  · have hsorted : List.Pairwise (fun (t u : L × L × V) => u.2.2 ≤ t.2.2)
        (data_proc_utils.sort_values false (data_proc_utils.unstack corr)) := by
      haveI : IsTotal (L × L × V) (fun t u => u.2.2 ≤ t.2.2) :=
        ⟨fun a b => Or.symm (le_total a.2.2 b.2.2)⟩
      haveI : IsTrans (L × L × V) (fun t u => u.2.2 ≤ t.2.2) :=
        ⟨fun _ _ _ h1 h2 => le_trans h2 h1⟩
      exact List.sorted_insertionSort _ _
    exact hsorted.sublist ((dedup_first_sublist _ _).trans (List.filter_sublist _))
  · have hsorted : List.Pairwise (fun (t u : L × L × V) => t.2.2 ≤ u.2.2)
        (data_proc_utils.sort_values true (data_proc_utils.unstack corr)) := by
      haveI : IsTotal (L × L × V) (fun t u => t.2.2 ≤ u.2.2) :=
        ⟨fun a b => le_total a.2.2 b.2.2⟩
      haveI : IsTrans (L × L × V) (fun t u => t.2.2 ≤ u.2.2) :=
        ⟨fun _ _ _ h1 h2 => le_trans h1 h2⟩
      exact List.sorted_insertionSort _ _
    exact hsorted.sublist ((dedup_first_sublist _ _).trans (List.filter_sublist _))

/-- C6: for every square symmetric matrix, every row (a, b, v) of the table
returned by `unstack_corr_df` satisfies v = corr[a][b] = corr[b][a]: the
unstacking introduces no new values and alters none. -/
theorem C6_values_round_trip (L V : Type) [LinearOrder L] [LinearOrder V]
    (corr : data_proc_utils.CorrDF L V) (ascending : Bool) (col_name_1 col_name_2 : String)
    (hsym : ∀ a ∈ corr.labels, ∀ b ∈ corr.labels, corr.entry a b = corr.entry b a) :
    ∀ t ∈ (data_proc_utils.unstack_corr_df corr ascending col_name_1 col_name_2).rows,
      t.2.2 = corr.entry t.1 t.2.1 ∧ t.2.2 = corr.entry t.2.1 t.1 := by
  intro t ht
  have h1 : t ∈ data_proc_utils.sort_values ascending (data_proc_utils.unstack corr) :=
    ((dedup_first_sublist _ _).trans (List.filter_sublist _)).subset ht
  have h2 : t ∈ data_proc_utils.unstack corr :=
    (sort_values_perm ascending _).mem_iff.mp h1
  obtain ⟨ha, hb, hv⟩ := mem_unstack.mp h2
  constructor
  · rw [hv]
    exact hsym t.2.1 hb t.1 ha
  · exact hv

/-- Witness for C6 with the symmetric 2x2 matrix over labels [0, 1] with
diagonal 10 and off-diagonal 7. -/
theorem C6_values_round_trip_witness :
    (∀ a ∈ ([0, 1] : List Nat), ∀ b ∈ ([0, 1] : List Nat),
        (fun (i j : Nat) => if i = j then (10 : Int) else 7) a b =
          (fun (i j : Nat) => if i = j then (10 : Int) else 7) b a) ∧
      ∀ t ∈ (data_proc_utils.unstack_corr_df
          (data_proc_utils.CorrDF.mk [0, 1] (fun (i j : Nat) => if i = j then (10 : Int) else 7))
          false "col_1" "col_2").rows,
        t.2.2 = (fun (i j : Nat) => if i = j then (10 : Int) else 7) t.1 t.2.1 ∧
        t.2.2 = (fun (i j : Nat) => if i = j then (10 : Int) else 7) t.2.1 t.1 :=
  ⟨by decide,
    C6_values_round_trip Nat Int
      (data_proc_utils.CorrDF.mk [0, 1] (fun (i j : Nat) => if i = j then (10 : Int) else 7))
      false "col_1" "col_2" (by decide)⟩

/-- C9: `unstack_corr_df` does not mutate its input: the caller's matrix after
the call (second component of `unstack_corr_df_frame`) is the input matrix,
entry for entry and label for label.  In the source no operation writes
through `corr`: the two `inplace=True` `reset_index` calls and the column
assignment mutate only the freshly created derived frame. -/
theorem C9_input_not_mutated (L V : Type) [LinearOrder L] [LinearOrder V]
    (corr : data_proc_utils.CorrDF L V) (ascending : Bool) (col_name_1 col_name_2 : String) :
    (data_proc_utils.unstack_corr_df_frame corr ascending col_name_1 col_name_2).2 = corr :=
  rfl
